import Mathlib

/-!
Shallow embedding of the TM FATFS convenience layer of this repository
(header `00-STM32_LIBRARIES/tm_stm32_fatfs.h`).  The repository ships only
the header with the declarations of `TM_FATFS_GetDriveSize`,
`TM_FATFS_TruncateBeginning` and `TM_FATFS_CheckCardDetectPin`; the
function bodies live in `tm_stm32_fatfs.c`, which is not part of the
source tree here.  The bodies are therefore modelled from the
specification (its sections 4, 6 and 7), faithful to its words.
-/

/-- Modelled from the spec: the error taxonomy of section 7, mirroring the
underlying filesystem layer's result codes (`FRESULT` of FatFs, whose
definition is outside this repository).  Success is represented
separately via `Except`. -/
inductive FsError where
  | notMounted
  | invalidArg
  | diskErr
  | noSpace
  | accessDenied
  | notSupported
deriving DecidableEq

/-- Fault model for the collaborator filesystem layer of section 6: the
n-th collaborator call (seek, read, write or truncate, counted from 0)
either succeeds (`none`) or fails with the given error (`some e`). -/
def Oracle : Type := Nat → Option FsError

/-- The fault-free collaborator behaviour: every call succeeds. -/
def cleanOracle : Oracle := fun _ => none

/-- A concrete fault behaviour used as a witness: the very first
collaborator call fails with a disk error, every later call succeeds. -/
def faultyOracle : Oracle := fun i => if i = 0 then some FsError.diskErr else none

/-- Modelled from the spec: an open file handle (FatFs `FIL`), a
byte-addressable, seekable, readable-and-writable file: its byte content
and the current read/write position `fptr`. -/
structure FIL where
  content : List Nat
  fptr : Nat
deriving DecidableEq

/-- Execution state threaded through the embedded collaborator calls: the
file, the number of collaborator calls made so far, and a ghost trace
recording, for every copy-loop iteration that performs a write, the read
cursor at iteration start, the write cursor, and the chunk length.  The
trace and the call counter are observation only: no definition reads
them. -/
structure FsState where
  fil : FIL
  calls : Nat
  trace : List (Nat × Nat × Nat)
deriving DecidableEq

/-- Modelled from the spec: collaborator `seek(handle, offset)` of section
6 — sets the file position.  Consumes one fallible collaborator call. -/
def f_lseek (oracle : Oracle) (ofs : Nat) (s : FsState) :
    Except FsError Unit × FsState :=
  match oracle s.calls with
  | some e => (Except.error e, { s with calls := s.calls + 1 })
  | none =>
      (Except.ok (),
       { s with fil := { s.fil with fptr := ofs }, calls := s.calls + 1 })

/-- Modelled from the spec: collaborator `read(handle, buffer, max_len)`
of section 6 — reads up to `len` bytes at the current position, advancing
the position by the number of bytes actually read.  The result carries
the contractual bound that at most `len` bytes are returned. -/
def f_read (oracle : Oracle) (len : Nat) (s : FsState) :
    Except FsError {l : List Nat // l.length ≤ len} × FsState :=
  match oracle s.calls with
  | some e => (Except.error e, { s with calls := s.calls + 1 })
  | none =>
      (Except.ok ⟨(s.fil.content.drop s.fil.fptr).take len, by
          simp⟩,
       { s with
          fil := { s.fil with
                    fptr := s.fil.fptr +
                      ((s.fil.content.drop s.fil.fptr).take len).length },
          calls := s.calls + 1 })

/-- Modelled from the spec: collaborator `write(handle, buffer, len)` of
section 6 — writes the bytes at the current position, overwriting the
bytes there, advancing the position. -/
def f_write (oracle : Oracle) (bs : List Nat) (s : FsState) :
    Except FsError Unit × FsState :=
  match oracle s.calls with
  | some e => (Except.error e, { s with calls := s.calls + 1 })
  | none =>
      (Except.ok (),
       { s with
          fil := { content := s.fil.content.take s.fil.fptr ++ bs ++
                      s.fil.content.drop (s.fil.fptr + bs.length),
                   fptr := s.fil.fptr + bs.length },
          calls := s.calls + 1 })

/-- Modelled from the spec: collaborator
`truncate_at_current_position(handle)` of section 6 (FatFs `f_truncate`)
— discards everything beyond the current position; the position is
unchanged. -/
def f_truncate (oracle : Oracle) (s : FsState) :
    Except FsError Unit × FsState :=
  match oracle s.calls with
  | some e => (Except.error e, { s with calls := s.calls + 1 })
  | none =>
      (Except.ok (),
       { s with
          fil := { content := s.fil.content.take s.fil.fptr,
                   fptr := s.fil.fptr },
          calls := s.calls + 1 })

/-- Default truncate buffer size in bytes, from the header
(`FATFS_TRUNCATE_BUFFER_SIZE`, default 256; a compile-time configuration
value). -/
def FATFS_TRUNCATE_BUFFER_SIZE : Nat := 256

/-- Modelled from the spec: the chunked copy loop of section 4.1 step 3.
Maintains a read cursor (initially `index`) and a write cursor (initially
0); each iteration seeks to the read cursor, reads up to
`min B remaining` bytes, advances the read cursor by the bytes actually
read, seeks to the write cursor, writes exactly the bytes read, and
advances the write cursor; it stops, returning the final write cursor,
when a read returns zero bytes.  `remaining` is the number of tail bytes
not yet read.  Each write iteration also prepends
`(readCur, writeCur, chunk length)` to the ghost trace. -/
def copyLoop (oracle : Oracle) (B : Nat) (remaining readCur writeCur : Nat)
    (s : FsState) : Except FsError Nat × FsState :=
  match f_lseek oracle readCur s with
  | (Except.error e, s1) => (Except.error e, s1)
  | (Except.ok _, s1) =>
    match f_read oracle (min B remaining) s1 with
    | (Except.error e, s2) => (Except.error e, s2)
    | (Except.ok bs, s2) =>
      if hz : bs.val.length = 0 then
        (Except.ok writeCur, s2)
      else
        match f_lseek oracle writeCur
            { s2 with trace := (readCur, writeCur, bs.val.length) :: s2.trace } with
        | (Except.error e, s3) => (Except.error e, s3)
        | (Except.ok _, s3) =>
          match f_write oracle bs.val s3 with
          | (Except.error e, s4) => (Except.error e, s4)
          | (Except.ok _, s4) =>
            copyLoop oracle B (remaining - bs.val.length)
              (readCur + bs.val.length) (writeCur + bs.val.length) s4
termination_by remaining
decreasing_by
  have hbs := bs.property
  omega

/-- Modelled from the spec: `TM_FATFS_TruncateBeginning(fil, index)`,
section 4.1.  Determines the file size (FatFs `f_size`, an infallible
struct read, hence no collaborator call); if `index >= size` it seeks to
offset 0, truncates there and returns success; otherwise it runs the
chunked copy loop relocating the tail of `size - index` bytes to offset
0, then seeks to the final write cursor and truncates at the current
position.  The first failing collaborator call aborts the operation with
that call's error. -/
def TM_FATFS_TruncateBeginning (oracle : Oracle) (B index : Nat)
    (s : FsState) : Except FsError Unit × FsState :=
  let size := s.fil.content.length
  if size ≤ index then
    match f_lseek oracle 0 s with
    | (Except.error e, s1) => (Except.error e, s1)
    | (Except.ok _, s1) =>
      match f_truncate oracle s1 with
      | (Except.error e, s2) => (Except.error e, s2)
      | (Except.ok _, s2) => (Except.ok (), s2)
  else
    match copyLoop oracle B (size - index) index 0 s with
    | (Except.error e, s1) => (Except.error e, s1)
    | (Except.ok wc, s1) =>
      match f_lseek oracle wc s1 with
      | (Except.error e, s2) => (Except.error e, s2)
      | (Except.ok _, s2) =>
        match f_truncate oracle s2 with
        | (Except.error e, s3) => (Except.error e, s3)
        | (Except.ok _, s3) => (Except.ok (), s3)

/-- Initial execution state for one call: the opened file, zero
collaborator calls made, empty ghost trace. -/
def initState (fil : FIL) : FsState :=
  { fil := fil, calls := 0, trace := [] }

/-- One call of `TM_FATFS_TruncateBeginning` on an opened file under a
given fault behaviour of the collaborator layer. -/
def truncateRun (oracle : Oracle) (B index : Nat) (fil : FIL) :
    Except FsError Unit × FsState :=
  TM_FATFS_TruncateBeginning oracle B index (initState fil)

/-- Modelled from the spec: the hypothetical unbounded-buffer copy of
section 8 — read the whole tail (all `size - index` bytes at offset
`index`) in a single chunk, write it at offset 0, and truncate at the end
of the written data.  Defined for the `index < size` regime the
equivalence property speaks about. -/
def truncateFrontUnbounded (fil : FIL) (index : Nat) : FIL :=
  let tail := fil.content.drop index
  let afterWrite := tail ++ fil.content.drop tail.length
  { content := afterWrite.take tail.length, fptr := tail.length }

/-- FATFS size structure from the header: total and free size of the
memory, both `uint32_t` fields (values reduced modulo 2^32). -/
structure TM_FATFS_Size_t where
  Total : Nat
  Free : Nat
deriving DecidableEq

/-- Modulus of the `uint32_t` fields of `TM_FATFS_Size_t`. -/
def UINT32_MOD : Nat := 2 ^ 32

/-- Modelled from the spec: the volume geometry the filesystem layer
reports for a mounted volume (section 6): free-cluster count, total
cluster count, sectors per cluster and bytes per sector. -/
structure DriveGeometry where
  freeClusters : Nat
  totalClusters : Nat
  sectorsPerCluster : Nat
  bytesPerSector : Nat
deriving DecidableEq

/-- Modelled from the spec: `TM_FATFS_GetDriveSize(str, SizeStruct)`,
section 4.2.  The argument is the result of the collaborator free-space
query (`f_getfree`) for the named volume: a failure is propagated
verbatim; on success the total and free byte counts are computed as
`clusters × sectors_per_cluster × bytes_per_sector` and stored into the
`uint32_t` fields of `TM_FATFS_Size_t` (hence reduced modulo 2^32). -/
def TM_FATFS_GetDriveSize (getfreeResult : Except FsError DriveGeometry) :
    Except FsError TM_FATFS_Size_t :=
  match getfreeResult with
  | Except.error e => Except.error e
  | Except.ok g =>
      Except.ok
        { Total := g.totalClusters * g.sectorsPerCluster * g.bytesPerSector %
            UINT32_MOD,
          Free := g.freeClusters * g.sectorsPerCluster * g.bytesPerSector %
            UINT32_MOD }

/-- Modelled from the spec: `TM_FATFS_CheckCardDetectPin()`, section 4.3
(compiled in, i.e. the card-detect feature is enabled).  Reads the
configured detect pin; active-low convention: returns nonzero (card
inserted) when the pin reads logic-low, 0 (not inserted) when it reads
logic-high.  The argument is the sampled pin level, `true` = logic-high.
-/
def TM_FATFS_CheckCardDetectPin (pinLevelHigh : Bool) : Nat :=
  if pinLevelHigh then 0 else 1

/-- Main invariant of the fault-free copy loop: starting after `k` copied
bytes (read cursor `index + k`, write cursor `k`, content equal to the
first `k` tail bytes followed by the untouched rest), the loop returns
the tail length `S - index` as final write cursor and leaves the first
`S - index` bytes of the content equal to the tail; the ghost trace is
extended, and by at least one record when work remains. -/
theorem copyLoop_clean (B : Nat) (hB : 0 < B) (orig : List Nat) (index : Nat)
    (hidx : index ≤ orig.length) :
    ∀ (r k fp n : Nat) (tr : List (Nat × Nat × Nat)),
      r = orig.length - index - k → k ≤ orig.length - index →
      ∃ n' tl,
        copyLoop cleanOracle B r (index + k) k
            ⟨⟨(orig.drop index).take k ++ orig.drop k, fp⟩, n, tr⟩ =
          (Except.ok (orig.length - index),
           ⟨⟨orig.drop index ++ orig.drop (orig.length - index), orig.length⟩,
            n', tl ++ tr⟩) ∧ (0 < r → tl ≠ []) := by
  intro r
  induction r using Nat.strong_induction_on with
  | _ r ih =>
  intro k fp n tr hr hk
  have hA : ((orig.drop index).take k).length = k := by
    rw [List.length_take, List.length_drop]; omega
  have hdropj : ∀ j : Nat,
      ((orig.drop index).take k ++ orig.drop k).drop (k + j) = orig.drop (k + j) := by
    intro j
    have h1 := @List.drop_append _ ((orig.drop index).take k) (orig.drop k) j
    rw [hA, List.drop_drop] at h1
    exact h1
  have hdropik :
      ((orig.drop index).take k ++ orig.drop k).drop (index + k) = orig.drop (index + k) := by
    have h := hdropj index
    rwa [Nat.add_comm k index] at h
  rw [copyLoop]
  simp only [f_lseek, f_read, cleanOracle, hdropik]
  have hbslen : ((orig.drop (index + k)).take (min B r)).length = min B r := by
    rw [List.length_take, List.length_drop]; omega
  rcases Nat.eq_zero_or_pos r with hr0 | hrpos
  · subst hr0
    simp only [Nat.min_zero, List.take_zero, List.length_nil, dif_pos]
    refine ⟨n + 2, [], ?_, by omega⟩
    have hkeq : k = orig.length - index := by omega
    subst hkeq
    have htake : (orig.drop index).take (orig.length - index) = orig.drop index := by
      rw [← List.length_drop index orig]
      exact List.take_length _
    simp [htake]
    omega
  · have hbpos : 0 < min B r := by omega
    rw [dif_neg (by rw [hbslen]; omega)]
    simp only [f_write, cleanOracle, hbslen, List.take_left' hA, hdropj]
    have hcont : (List.take k (List.drop index orig) ++
        List.take (min B r) (List.drop (index + k) orig)) ++ List.drop (k + min B r) orig =
        List.take (k + min B r) (List.drop index orig) ++ List.drop (k + min B r) orig := by
      rw [List.take_add, List.drop_drop]
    simp only [hcont]
    rw [Nat.add_assoc index k (min B r)]
    obtain ⟨n2, tl2, hEq, htl2⟩ :=
      ih (r - min B r) (by omega) (k + min B r) (k + min B r) (n + 1 + 1 + 1 + 1)
        ((index + k, k, min B r) :: tr) (by omega) (by omega)
    rw [hEq]
    refine ⟨n2, tl2 ++ [(index + k, k, min B r)], ?_, ?_⟩
    · simp
    · intro _
      simp

/-- Fault-free run of `TM_FATFS_TruncateBeginning` in the copy regime
`index < size`: it succeeds and the file ends with content
`content.drop index` and position `size - index`; at least one copy
iteration is recorded. -/
theorem truncateRun_clean_copy (B index : Nat) (fil : FIL) (hB : 0 < B)
    (hidx : index < fil.content.length) :
    ∃ n' tl,
      truncateRun cleanOracle B index fil =
        (Except.ok (),
         ⟨⟨fil.content.drop index, fil.content.length - index⟩, n', tl⟩) ∧
      tl ≠ [] := by
  obtain ⟨n2, tl2, hEq, htl⟩ :=
    copyLoop_clean B hB fil.content index (Nat.le_of_lt hidx)
      (fil.content.length - index) 0 fil.fptr 0 [] (by omega) (by omega)
  simp only [Nat.add_zero, List.take_zero, List.nil_append, List.drop_zero,
    List.append_nil] at hEq
  simp only [truncateRun, TM_FATFS_TruncateBeginning, initState]
  rw [if_neg (by omega)]
  rw [show fil = (⟨fil.content, fil.fptr⟩ : FIL) from rfl]
  rw [hEq]
  simp only [f_lseek, f_truncate, cleanOracle]
  have hlen : (fil.content.drop index).length = fil.content.length - index :=
    List.length_drop index fil.content
  rw [List.take_left' hlen]
  exact ⟨n2 + 1 + 1, tl2, rfl, htl (by omega)⟩

/-- Fault-free run of `TM_FATFS_TruncateBeginning` in the discard regime
`index >= size`: seek to 0 and truncate there — the file ends empty with
position 0, after exactly 2 collaborator calls and no copy iteration. -/
theorem truncateRun_clean_discard (B index : Nat) (fil : FIL)
    (hge : fil.content.length ≤ index) :
    truncateRun cleanOracle B index fil =
      (Except.ok (), ⟨⟨[], 0⟩, 2, []⟩) := by
  simp only [truncateRun, TM_FATFS_TruncateBeginning, initState]
  rw [if_pos hge]
  simp [f_lseek, f_truncate, cleanOracle]

/-- The spec-level unbounded-buffer copy reduces to: content is the tail
`content.drop index`, position is the tail length. -/
theorem truncateFrontUnbounded_eq (fil : FIL) (index : Nat) :
    truncateFrontUnbounded fil index =
      ⟨fil.content.drop index, (fil.content.drop index).length⟩ := by
  unfold truncateFrontUnbounded
  simp only [List.take_left]

/-- C1: for every file of size S and truncation length L with
0 ≤ L < S, a successful (fault-free) call of `TM_FATFS_TruncateBeginning`
leaves the file with content equal to bytes [L, S) of the original
content (`List.drop L`) and size S - L. -/
theorem tm_truncate_front_correct (B index : Nat) (fil : FIL)
    (hB : 0 < B) (hidx : index < fil.content.length) :
    (truncateRun cleanOracle B index fil).1 = Except.ok () ∧
    (truncateRun cleanOracle B index fil).2.fil.content = fil.content.drop index ∧
    (truncateRun cleanOracle B index fil).2.fil.content.length =
      fil.content.length - index := by
  obtain ⟨n', tl, hEq, -⟩ := truncateRun_clean_copy B index fil hB hidx
  rw [hEq]
  exact ⟨rfl, rfl, by simp⟩

/-- Witness for C1 at a concrete input (file of 3 bytes, L = 1, B = 2). -/
theorem tm_truncate_front_correct_witness :
    (truncateRun cleanOracle 2 1 ⟨[10, 20, 30], 0⟩).1 = Except.ok () ∧
    (truncateRun cleanOracle 2 1 ⟨[10, 20, 30], 0⟩).2.fil.content =
      ([10, 20, 30] : List Nat).drop 1 ∧
    (truncateRun cleanOracle 2 1 ⟨[10, 20, 30], 0⟩).2.fil.content.length =
      ([10, 20, 30] : List Nat).length - 1 :=
  tm_truncate_front_correct 2 1 ⟨[10, 20, 30], 0⟩ (by decide) (by decide)

/-- C2: for every truncation length L ≥ S (including S = 0 with positive
L), `TM_FATFS_TruncateBeginning` succeeds and leaves the file existing
but empty: the handle still denotes a file, whose content is `[]`.  The
model has no delete operation and the discard branch only seeks and
truncates, so the file is not deleted. -/
theorem tm_truncate_overlength_empties (B index : Nat) (fil : FIL)
    (hge : fil.content.length ≤ index) :
    (truncateRun cleanOracle B index fil).1 = Except.ok () ∧
    (truncateRun cleanOracle B index fil).2.fil.content = [] := by
  rw [truncateRun_clean_discard B index fil hge]
  exact ⟨rfl, rfl⟩

/-- Witness for C2 at a concrete input (5-byte file, L = 100). -/
theorem tm_truncate_overlength_empties_witness :
    (truncateRun cleanOracle FATFS_TRUNCATE_BUFFER_SIZE 100 ⟨[1, 2, 3, 4, 5], 0⟩).1 =
      Except.ok () ∧
    (truncateRun cleanOracle FATFS_TRUNCATE_BUFFER_SIZE 100 ⟨[1, 2, 3, 4, 5], 0⟩).2.fil.content = [] :=
  tm_truncate_overlength_empties FATFS_TRUNCATE_BUFFER_SIZE 100 ⟨[1, 2, 3, 4, 5], 0⟩
    (by decide)

/-- C3: for 0 < B < S - L the chunked front-truncation run produces a
file identical (same content, size and position) to the spec-level
single unbounded-buffer copy of the tail: the staging-buffer capacity is
observably transparent. -/
theorem tm_truncate_buffer_transparent (B index : Nat) (fil : FIL)
    (hB : 0 < B) (hidx : index < fil.content.length)
    (hBlt : B < fil.content.length - index) :
    (truncateRun cleanOracle B index fil).2.fil =
      truncateFrontUnbounded fil index := by
  obtain ⟨n', tl, hEq, -⟩ := truncateRun_clean_copy B index fil hB hidx
  rw [hEq, truncateFrontUnbounded_eq]
  simp

/-- Witness for C3 at a concrete input (6-byte file, L = 1, B = 2 < 5). -/
theorem tm_truncate_buffer_transparent_witness :
    (truncateRun cleanOracle 2 1 ⟨[1, 2, 3, 4, 5, 6], 0⟩).2.fil =
      truncateFrontUnbounded ⟨[1, 2, 3, 4, 5, 6], 0⟩ 1 :=
  tm_truncate_buffer_transparent 2 1 ⟨[1, 2, 3, 4, 5, 6], 0⟩ (by decide) (by decide)
    (by decide)

/-- C6 counterexample: the claim says a call with index 0 performs zero
copy iterations; on the nonempty file `[7]` with the default buffer size
the fault-free run records exactly one copy iteration in the ghost trace
(one record per iteration that reads data), so the claim as stated is
false.  Content and size are nevertheless unchanged, see the amended
theorem. -/
theorem tm_truncate_zero_index_counterexample :
    (truncateRun cleanOracle FATFS_TRUNCATE_BUFFER_SIZE 0 ⟨[7], 0⟩).2.trace =
      [(0, 0, 1)] ∧
    ([(0, 0, 1)] : List (Nat × Nat × Nat)) ≠ [] := by
  constructor
  · simp [truncateRun, TM_FATFS_TruncateBeginning, copyLoop, f_lseek, f_read,
      f_write, f_truncate, cleanOracle, initState, FATFS_TRUNCATE_BUFFER_SIZE]
  · simp

/-- C6 (amended): `TM_FATFS_TruncateBeginning` with index 0 succeeds and
leaves the file content and size unchanged; however, for a nonempty file
the copy loop performs at least one in-place copy iteration (the whole
tail of S bytes is copied onto itself), not zero. -/
theorem tm_truncate_zero_index_noop (B : Nat) (fil : FIL) (hB : 0 < B) :
    (truncateRun cleanOracle B 0 fil).1 = Except.ok () ∧
    (truncateRun cleanOracle B 0 fil).2.fil.content = fil.content ∧
    (truncateRun cleanOracle B 0 fil).2.fil.content.length = fil.content.length ∧
    (fil.content ≠ [] → (truncateRun cleanOracle B 0 fil).2.trace ≠ []) := by
  rcases eq_or_ne fil.content [] with hnil | hne
  · rw [truncateRun_clean_discard B 0 fil (by rw [hnil]; simp)]
    exact ⟨rfl, by simp [hnil], by simp [hnil], fun h => absurd hnil h⟩
  · obtain ⟨n', tl, hEq, htl⟩ :=
      truncateRun_clean_copy B 0 fil hB (List.length_pos.mpr hne)
    rw [hEq]
    exact ⟨rfl, by simp, by simp, fun _ => htl⟩

/-- Witness for C6 (amended) at a concrete input (2-byte file). -/
theorem tm_truncate_zero_index_noop_witness :
    (truncateRun cleanOracle 4 0 ⟨[9, 8], 3⟩).1 = Except.ok () ∧
    (truncateRun cleanOracle 4 0 ⟨[9, 8], 3⟩).2.fil.content = [9, 8] ∧
    (truncateRun cleanOracle 4 0 ⟨[9, 8], 3⟩).2.fil.content.length =
      ([9, 8] : List Nat).length ∧
    (([9, 8] : List Nat) ≠ [] → (truncateRun cleanOracle 4 0 ⟨[9, 8], 3⟩).2.trace ≠ []) :=
  tm_truncate_zero_index_noop 4 ⟨[9, 8], 3⟩ (by decide)

/-- C10: after every successful (fault-free) call of
`TM_FATFS_TruncateBeginning` the handle position equals the file's new
size (the new end of file): S - index when index < S, and 0 when
index ≥ S (both cases are `S - index` in truncated subtraction). -/
theorem tm_truncate_final_position (B index : Nat) (fil : FIL) (hB : 0 < B) :
    (truncateRun cleanOracle B index fil).1 = Except.ok () ∧
    (truncateRun cleanOracle B index fil).2.fil.fptr =
      (truncateRun cleanOracle B index fil).2.fil.content.length ∧
    (truncateRun cleanOracle B index fil).2.fil.fptr =
      fil.content.length - index := by
  rcases Nat.lt_or_ge index fil.content.length with hidx | hge
  · obtain ⟨n', tl, hEq, -⟩ := truncateRun_clean_copy B index fil hB hidx
    rw [hEq]
    exact ⟨rfl, by simp, rfl⟩
  · rw [truncateRun_clean_discard B index fil hge]
    refine ⟨rfl, rfl, ?_⟩
    simp
    omega

/-- Witness for C10 at a concrete input (5-byte file, L = 2, B = 3). -/
theorem tm_truncate_final_position_witness :
    (truncateRun cleanOracle 3 2 ⟨[5, 6, 7, 8, 9], 0⟩).1 = Except.ok () ∧
    (truncateRun cleanOracle 3 2 ⟨[5, 6, 7, 8, 9], 0⟩).2.fil.fptr =
      (truncateRun cleanOracle 3 2 ⟨[5, 6, 7, 8, 9], 0⟩).2.fil.content.length ∧
    (truncateRun cleanOracle 3 2 ⟨[5, 6, 7, 8, 9], 0⟩).2.fil.fptr =
      ([5, 6, 7, 8, 9] : List Nat).length - 2 :=
  tm_truncate_final_position 3 2 ⟨[5, 6, 7, 8, 9], 0⟩ (by decide)

/-- Seeking never changes the ghost trace. -/
theorem f_lseek_trace (oracle : Oracle) (ofs : Nat) (s : FsState) :
    ((f_lseek oracle ofs s).2).trace = s.trace := by
  unfold f_lseek
  cases oracle s.calls <;> rfl

/-- Truncating never changes the ghost trace. -/
theorem f_truncate_trace (oracle : Oracle) (s : FsState) :
    ((f_truncate oracle s).2).trace = s.trace := by
  unfold f_truncate
  cases oracle s.calls <;> rfl

/-- Under any fault behaviour, if the copy loop is entered with
write cursor ≤ read cursor and every already-recorded iteration
satisfies the cursor invariant, then every iteration recorded by the
whole run satisfies it (each record is
(read cursor, write cursor, chunk length) and the invariant is
write cursor ≤ read cursor). -/
theorem copyLoop_trace_invariant (oracle : Oracle) (B : Nat) :
    ∀ (r readCur writeCur : Nat) (s : FsState),
      writeCur ≤ readCur →
      (∀ p ∈ s.trace, p.2.1 ≤ p.1) →
      ∀ p ∈ ((copyLoop oracle B r readCur writeCur s).2).trace, p.2.1 ≤ p.1 := by
  intro r
  induction r using Nat.strong_induction_on with
  | _ r ih =>
  intro readCur writeCur s hwr htr
  rw [copyLoop]
  simp only [f_lseek]
  cases ho0 : oracle s.calls with
  | some e => simpa using htr
  | none =>
    simp only [f_read]
    cases ho1 : oracle (s.calls + 1) with
    | some e => simpa using htr
    | none =>
      dsimp only
      split
      · simpa using htr
      · rename_i hz
        cases ho2 : oracle (s.calls + 1 + 1) with
        | some e =>
          intro p hp
          simp at hp
          rcases hp with hp | hp
          · rw [hp]; exact hwr
          · exact htr p hp
        | none =>
          dsimp only
          simp only [f_write]
          cases ho3 : oracle (s.calls + 1 + 1 + 1) with
          | some e =>
            intro p hp
            simp at hp
            rcases hp with hp | hp
            · rw [hp]; exact hwr
            · exact htr p hp
          | none =>
            dsimp only
            have hlt := List.length_take (B ⊓ r) (List.drop readCur s.fil.content)
            apply ih _ (by omega) _ _ _ (by omega)
            intro p hp
            simp at hp
            rcases hp with hp | hp
            · rw [hp]; exact hwr
            · exact htr p hp

/-- C5: throughout every execution of the copy loop (under any fault
behaviour), each iteration recorded in the ghost trace as
(read cursor at iteration start, write cursor, chunk length) satisfies
write cursor ≤ read cursor.  Since after the read the unread bytes lie
at offsets ≥ read cursor + chunk length, and the write covers offsets
[write cursor, write cursor + chunk length), no chunk write overwrites
file bytes that have not yet been read. -/
theorem tm_truncate_cursor_invariant (oracle : Oracle) (B index : Nat) (fil : FIL) :
    ∀ p ∈ ((truncateRun oracle B index fil).2).trace, p.2.1 ≤ p.1 := by
  unfold truncateRun TM_FATFS_TruncateBeginning
  dsimp only [initState]
  split
  · rcases h1 : f_lseek oracle 0 ⟨fil, 0, []⟩ with ⟨res1, s1⟩
    have ht1 : s1.trace = [] := by
      have h := f_lseek_trace oracle 0 ⟨fil, 0, []⟩
      rw [h1] at h
      exact h
    cases res1 with
    | error e => simp [ht1]
    | ok a =>
      dsimp only
      rcases h2 : f_truncate oracle s1 with ⟨res2, s2⟩
      have ht2 : s2.trace = [] := by
        have h := f_truncate_trace oracle s1
        rw [h2] at h
        exact h.trans ht1
      cases res2 with
      | error e => simp [ht2]
      | ok a2 => simp [ht2]
  · rcases h1 : copyLoop oracle B (fil.content.length - index) index 0 ⟨fil, 0, []⟩
      with ⟨res1, s1⟩
    have ht1 : ∀ p ∈ s1.trace, p.2.1 ≤ p.1 := by
      have h := copyLoop_trace_invariant oracle B (fil.content.length - index) index 0
        ⟨fil, 0, []⟩ (Nat.zero_le _) (by simp)
      rw [h1] at h
      exact h
    cases res1 with
    | error e => exact ht1
    | ok wc =>
      dsimp only
      rcases h2 : f_lseek oracle wc s1 with ⟨res2, s2⟩
      have e2 : s2.trace = s1.trace := by
        have h := f_lseek_trace oracle wc s1
        rw [h2] at h
        exact h
      cases res2 with
      | error e => exact fun p hp => ht1 p (e2 ▸ hp)
      | ok a2 =>
        dsimp only
        rcases h3 : f_truncate oracle s2 with ⟨res3, s3⟩
        have e3 : s3.trace = s2.trace := by
          have h := f_truncate_trace oracle s2
          rw [h3] at h
          exact h
        cases res3 with
        | error e => exact fun p hp => ht1 p (e2 ▸ e3 ▸ hp)
        | ok a3 => exact fun p hp => ht1 p (e2 ▸ e3 ▸ hp)

/-- Witness for C5 at a concrete input: the run on a 3-byte file with
L = 1 records the iteration (1, 0, 2), and 0 ≤ 1. -/
theorem tm_truncate_cursor_invariant_witness :
    ((1, 0, 2) : Nat × Nat × Nat).2.1 ≤ ((1, 0, 2) : Nat × Nat × Nat).1 :=
  tm_truncate_cursor_invariant cleanOracle 256 1 ⟨[1, 2, 3], 0⟩ (1, 0, 2) (by
    simp [truncateRun, TM_FATFS_TruncateBeginning, copyLoop, f_lseek, f_read,
      f_write, f_truncate, cleanOracle, initState])

/-- First-fault behaviour of the copy loop under an arbitrary fault
oracle: the call counter never decreases; if the loop returns success
then every collaborator call it made succeeded; if it returns an error
then the last call made is the first failing one, it carries exactly the
oracle's error for that call, and every earlier call succeeded. -/
theorem copyLoop_first_fault (oracle : Oracle) (B : Nat) :
    ∀ (r readCur writeCur : Nat) (s : FsState) (res : Except FsError Nat)
      (s' : FsState),
      copyLoop oracle B r readCur writeCur s = (res, s') →
      s.calls ≤ s'.calls ∧
      (∀ a, res = Except.ok a →
        ∀ i, s.calls ≤ i → i < s'.calls → oracle i = none) ∧
      (∀ e, res = Except.error e →
        s.calls < s'.calls ∧ oracle (s'.calls - 1) = some e ∧
        ∀ i, s.calls ≤ i → i < s'.calls - 1 → oracle i = none) := by
  intro r
  induction r using Nat.strong_induction_on with
  | _ r ih =>
  intro readCur writeCur s res s' hrun
  rw [copyLoop] at hrun
  simp only [f_lseek, f_read, f_write] at hrun
  cases ho0 : oracle s.calls with
  | some e0 =>
    simp only [ho0] at hrun
    obtain ⟨hres, hs'⟩ := Prod.mk.inj hrun
    subst hres
    subst hs'
    refine ⟨by dsimp only; omega, ?_, ?_⟩
    · intro a ha
      simp at ha
    · intro e he
      simp only [Except.error.injEq] at he
      subst he
      refine ⟨by dsimp only; omega, by simpa using ho0, ?_⟩
      intro i hi1 hi2
      simp at hi2
      omega
  | none =>
    simp only [ho0] at hrun
    cases ho1 : oracle (s.calls + 1) with
    | some e1 =>
      simp only [ho1] at hrun
      obtain ⟨hres, hs'⟩ := Prod.mk.inj hrun
      subst hres
      subst hs'
      refine ⟨by dsimp only; omega, ?_, ?_⟩
      · intro a ha
        simp at ha
      · intro e he
        simp only [Except.error.injEq] at he
        subst he
        refine ⟨by dsimp only; omega, by simpa using ho1, ?_⟩
        intro i hi1 hi2
        simp at hi2
        have : i = s.calls := by omega
        rw [this]
        exact ho0
    | none =>
      simp only [ho1] at hrun
      split at hrun
      · obtain ⟨hres, hs'⟩ := Prod.mk.inj hrun
        subst hres
        subst hs'
        refine ⟨by dsimp only; omega, ?_, ?_⟩
        · intro a ha
          intro i hi1 hi2
          simp at hi2
          have : i = s.calls ∨ i = s.calls + 1 := by omega
          rcases this with rfl | rfl
          · exact ho0
          · exact ho1
        · intro e he
          simp at he
      · rename_i hz
        cases ho2 : oracle (s.calls + 1 + 1) with
        | some e2 =>
          simp only [ho2] at hrun
          obtain ⟨hres, hs'⟩ := Prod.mk.inj hrun
          subst hres
          subst hs'
          refine ⟨by dsimp only; omega, ?_, ?_⟩
          · intro a ha
            simp at ha
          · intro e he
            simp only [Except.error.injEq] at he
            subst he
            refine ⟨by dsimp only; omega, by simpa using ho2, ?_⟩
            intro i hi1 hi2
            simp at hi2
            have : i = s.calls ∨ i = s.calls + 1 := by omega
            rcases this with rfl | rfl
            · exact ho0
            · exact ho1
        | none =>
          simp only [ho2] at hrun
          cases ho3 : oracle (s.calls + 1 + 1 + 1) with
          | some e3 =>
            simp only [ho3] at hrun
            obtain ⟨hres, hs'⟩ := Prod.mk.inj hrun
            subst hres
            subst hs'
            refine ⟨by dsimp only; omega, ?_, ?_⟩
            · intro a ha
              simp at ha
            · intro e he
              simp only [Except.error.injEq] at he
              subst he
              refine ⟨by dsimp only; omega, by simpa using ho3, ?_⟩
              intro i hi1 hi2
              simp at hi2
              have : i = s.calls ∨ i = s.calls + 1 ∨ i = s.calls + 1 + 1 := by
                omega
              rcases this with rfl | rfl | rfl
              · exact ho0
              · exact ho1
              · exact ho2
          | none =>
            simp only [ho3] at hrun
            have hlt : (List.take (B ⊓ r)
                (List.drop readCur s.fil.content)).length ≤ B ⊓ r := by
              rw [List.length_take]
              omega
            have hrec := ih _ (by omega) _ _ _ _ _ hrun
            obtain ⟨hcalls, hok, herr⟩ := hrec
            simp only at hcalls hok herr
            refine ⟨by omega, ?_, ?_⟩
            · intro a ha i hi1 hi2
              rcases Nat.lt_or_ge i (s.calls + 1 + 1 + 1 + 1) with hi | hi
              · have : i = s.calls ∨ i = s.calls + 1 ∨ i = s.calls + 1 + 1 ∨
                    i = s.calls + 1 + 1 + 1 := by omega
                rcases this with rfl | rfl | rfl | rfl
                · exact ho0
                · exact ho1
                · exact ho2
                · exact ho3
              · exact hok a ha i hi hi2
            · intro e he
              obtain ⟨h1, h2, h3⟩ := herr e he
              refine ⟨by omega, h2, ?_⟩
              intro i hi1 hi2
              rcases Nat.lt_or_ge i (s.calls + 1 + 1 + 1 + 1) with hi | hi
              · have : i = s.calls ∨ i = s.calls + 1 ∨ i = s.calls + 1 + 1 ∨
                    i = s.calls + 1 + 1 + 1 := by omega
                rcases this with rfl | rfl | rfl | rfl
                · exact ho0
                · exact ho1
                · exact ho2
                · exact ho3
              · exact h3 i hi hi2

/-- Seek makes exactly one collaborator call and mirrors its outcome. -/
theorem f_lseek_spec (oracle : Oracle) (ofs : Nat) (s : FsState)
    (res : Except FsError Unit) (s' : FsState)
    (h : f_lseek oracle ofs s = (res, s')) :
    s'.calls = s.calls + 1 ∧
    (∀ a, res = Except.ok a → oracle s.calls = none) ∧
    (∀ e, res = Except.error e → oracle s.calls = some e) := by
  unfold f_lseek at h
  cases ho : oracle s.calls <;> simp only [ho] at h
  · obtain ⟨h1, h2⟩ := Prod.mk.inj h
    subst h1
    subst h2
    refine ⟨rfl, fun a _ => rfl, fun e he => ?_⟩
    simp at he
  · obtain ⟨h1, h2⟩ := Prod.mk.inj h
    subst h1
    subst h2
    refine ⟨rfl, fun a ha => ?_, fun e he => ?_⟩
    · simp at ha
    · simp only [Except.error.injEq] at he
      rw [he]

/-- Truncate makes exactly one collaborator call and mirrors its
outcome. -/
theorem f_truncate_spec (oracle : Oracle) (s : FsState)
    (res : Except FsError Unit) (s' : FsState)
    (h : f_truncate oracle s = (res, s')) :
    s'.calls = s.calls + 1 ∧
    (∀ a, res = Except.ok a → oracle s.calls = none) ∧
    (∀ e, res = Except.error e → oracle s.calls = some e) := by
  unfold f_truncate at h
  cases ho : oracle s.calls <;> simp only [ho] at h
  · obtain ⟨h1, h2⟩ := Prod.mk.inj h
    subst h1
    subst h2
    refine ⟨rfl, fun a _ => rfl, fun e he => ?_⟩
    simp at he
  · obtain ⟨h1, h2⟩ := Prod.mk.inj h
    subst h1
    subst h2
    refine ⟨rfl, fun a ha => ?_, fun e he => ?_⟩
    · simp at ha
    · simp only [Except.error.injEq] at he
      rw [he]

/-- C4: `TM_FATFS_TruncateBeginning` returns success only if every
underlying seek, read, write and truncate call succeeded (the oracle is
`none` for every call made); and if it returns an error then the last
call counted is the first failing one, no further collaborator call is
made after it, and the returned error code is exactly that call's error,
all earlier calls having succeeded. -/
theorem tm_truncate_first_fault (oracle : Oracle) (B index : Nat) (fil : FIL) :
    ((truncateRun oracle B index fil).1 = Except.ok () →
      ∀ i, i < (truncateRun oracle B index fil).2.calls → oracle i = none) ∧
    (∀ e, (truncateRun oracle B index fil).1 = Except.error e →
      oracle ((truncateRun oracle B index fil).2.calls - 1) = some e ∧
      ∀ i, i < (truncateRun oracle B index fil).2.calls - 1 → oracle i = none) := by
  unfold truncateRun TM_FATFS_TruncateBeginning
  dsimp only [initState]
  split
  · rcases h1 : f_lseek oracle 0 ⟨fil, 0, []⟩ with ⟨res1, s1⟩
    obtain ⟨hc1, hok1, herr1⟩ := f_lseek_spec oracle 0 ⟨fil, 0, []⟩ res1 s1 h1
    have hc1' : s1.calls = 1 := by simp [hc1]
    cases res1 with
    | error e1 =>
      refine ⟨fun h _ _ => by simp at h, fun e he => ?_⟩
      simp only [Except.error.injEq] at he
      subst he
      refine ⟨?_, ?_⟩
      · rw [hc1']
        simpa using herr1 e1 rfl
      · intro i hi
        rw [hc1'] at hi
        omega
    | ok a1 =>
      dsimp only
      rcases h2 : f_truncate oracle s1 with ⟨res2, s2⟩
      obtain ⟨hc2, hok2, herr2⟩ := f_truncate_spec oracle s1 res2 s2 h2
      have hc2' : s2.calls = 2 := by rw [hc2, hc1']
      cases res2 with
      | error e2 =>
        refine ⟨fun h _ _ => by simp at h, fun e he => ?_⟩
        simp only [Except.error.injEq] at he
        subst he
        refine ⟨?_, ?_⟩
        · rw [hc2']
          have h := herr2 e2 rfl
          rw [hc1'] at h
          exact h
        · intro i hi
          rw [hc2'] at hi
          have : i = 0 := by omega
          rw [this]
          simpa using hok1 a1 rfl
      | ok a2 =>
        refine ⟨fun _ i hi => ?_, fun e he => by simp at he⟩
        rw [hc2'] at hi
        have : i = 0 ∨ i = 1 := by omega
        rcases this with rfl | rfl
        · simpa using hok1 a1 rfl
        · have h := hok2 a2 rfl
          rw [hc1'] at h
          exact h
  · rcases h1 : copyLoop oracle B (fil.content.length - index) index 0 ⟨fil, 0, []⟩
      with ⟨res1, s1⟩
    obtain ⟨hc1, hok1, herr1⟩ :=
      copyLoop_first_fault oracle B (fil.content.length - index) index 0
        ⟨fil, 0, []⟩ res1 s1 h1
    cases res1 with
    | error e1 =>
      refine ⟨fun h _ _ => by simp at h, fun e he => ?_⟩
      simp only [Except.error.injEq] at he
      subst he
      obtain ⟨hlt, hlast, hrange⟩ := herr1 e1 rfl
      exact ⟨hlast, fun i hi => hrange i (Nat.zero_le i) hi⟩
    | ok wc =>
      dsimp only
      have hclean1 : ∀ i, i < s1.calls → oracle i = none :=
        fun i hi => hok1 wc rfl i (Nat.zero_le i) hi
      rcases h2 : f_lseek oracle wc s1 with ⟨res2, s2⟩
      obtain ⟨hc2, hok2, herr2⟩ := f_lseek_spec oracle wc s1 res2 s2 h2
      cases res2 with
      | error e2 =>
        refine ⟨fun h _ _ => by simp at h, fun e he => ?_⟩
        simp only [Except.error.injEq] at he
        subst he
        refine ⟨?_, ?_⟩
        · rw [hc2]
          simpa using herr2 e2 rfl
        · intro i hi
          rw [hc2] at hi
          exact hclean1 i (by omega)
      | ok a2 =>
        dsimp only
        rcases h3 : f_truncate oracle s2 with ⟨res3, s3⟩
        obtain ⟨hc3, hok3, herr3⟩ := f_truncate_spec oracle s2 res3 s3 h3
        cases res3 with
        | error e3 =>
          refine ⟨fun h _ _ => by simp at h, fun e he => ?_⟩
          simp only [Except.error.injEq] at he
          subst he
          refine ⟨?_, ?_⟩
          · rw [hc3, hc2]
            simpa [hc2] using herr3 e3 rfl
          · intro i hi
            rw [hc3, hc2] at hi
            rcases Nat.lt_or_ge i s1.calls with h | h
            · exact hclean1 i h
            · have : i = s1.calls := by omega
              rw [this]
              exact hok2 a2 rfl
        | ok a3 =>
          refine ⟨fun _ i hi => ?_, fun e he => by simp at he⟩
          rw [hc3, hc2] at hi
          rcases Nat.lt_or_ge i s1.calls with h | h
          · exact hclean1 i h
          · have : i = s1.calls ∨ i = s1.calls + 1 := by omega
            rcases this with rfl | rfl
            · exact hok2 a2 rfl
            · have h := hok3 a3 rfl
              rw [hc2] at h
              exact h


/-- Witness for C4: with the first collaborator call failing with a disk
error, the run stops after that call (counter 1) and propagates the disk
error verbatim. -/
theorem tm_truncate_first_fault_witness :
    faultyOracle ((truncateRun faultyOracle 256 5 ⟨[1, 2], 0⟩).2.calls - 1) =
      some FsError.diskErr ∧
    ∀ i, i < (truncateRun faultyOracle 256 5 ⟨[1, 2], 0⟩).2.calls - 1 →
      faultyOracle i = none :=
  (tm_truncate_first_fault faultyOracle 256 5 ⟨[1, 2], 0⟩).2 FsError.diskErr rfl

/-- C8: with the card-detect feature enabled,
`TM_FATFS_CheckCardDetectPin` reports card-inserted (nonzero) exactly
when the configured detect pin reads logic-low, and 0 (not inserted)
when the pin reads logic-high, for every pin state. -/
theorem tm_check_card_detect_pin (pinLevelHigh : Bool) :
    (TM_FATFS_CheckCardDetectPin pinLevelHigh ≠ 0 ↔ pinLevelHigh = false) ∧
    (pinLevelHigh = true → TM_FATFS_CheckCardDetectPin pinLevelHigh = 0) := by
  cases pinLevelHigh <;> simp [TM_FATFS_CheckCardDetectPin]

/-- Witness for C8 at the concrete low pin level. -/
theorem tm_check_card_detect_pin_witness :
    (TM_FATFS_CheckCardDetectPin false ≠ 0 ↔ false = false) ∧
    (false = true → TM_FATFS_CheckCardDetectPin false = 0) :=
  tm_check_card_detect_pin false

/-- C7 counterexample: on a mounted volume with free_clusters = 2^19 ≤
total_clusters = 2^20, 8 sectors per cluster and 512 bytes per sector,
the true total byte count is 2^32, which wraps to 0 in the uint32 Total
field while Free = 2^31; hence Free ≤ Total fails and the claim as
stated is false. -/
theorem tm_getdrivesize_free_le_total_counterexample :
    TM_FATFS_GetDriveSize (Except.ok ⟨2 ^ 19, 2 ^ 20, 8, 512⟩) =
      Except.ok ⟨0, 2 ^ 31⟩ ∧
    (2 ^ 19 : Nat) ≤ 2 ^ 20 ∧
    ¬ ((2 ^ 31 : Nat) ≤ 0) := by
  refine ⟨?_, by norm_num, by norm_num⟩
  unfold TM_FATFS_GetDriveSize UINT32_MOD
  norm_num

/-- C7 (amended): provided free_clusters ≤ total_clusters (mounted
volume) and the true total byte count fits in 32 bits (no uint32
overflow), a successful `TM_FATFS_GetDriveSize` returns Free ≤ Total and
both fields are exact multiples of
sectors_per_cluster × bytes_per_sector. -/
theorem tm_getdrivesize_no_overflow (g : DriveGeometry)
    (hfc : g.freeClusters ≤ g.totalClusters)
    (hov : g.totalClusters * g.sectorsPerCluster * g.bytesPerSector < UINT32_MOD) :
    ∃ sz, TM_FATFS_GetDriveSize (Except.ok g) = Except.ok sz ∧
      sz.Free ≤ sz.Total ∧
      (g.sectorsPerCluster * g.bytesPerSector) ∣ sz.Total ∧
      (g.sectorsPerCluster * g.bytesPerSector) ∣ sz.Free := by
  have hfree : g.freeClusters * g.sectorsPerCluster * g.bytesPerSector ≤
      g.totalClusters * g.sectorsPerCluster * g.bytesPerSector :=
    mul_le_mul_right' (mul_le_mul_right' hfc _) _
  refine ⟨⟨g.totalClusters * g.sectorsPerCluster * g.bytesPerSector % UINT32_MOD,
          g.freeClusters * g.sectorsPerCluster * g.bytesPerSector % UINT32_MOD⟩,
    rfl, ?_, ?_, ?_⟩
  · dsimp only
    rw [Nat.mod_eq_of_lt hov, Nat.mod_eq_of_lt (Nat.lt_of_le_of_lt hfree hov)]
    exact hfree
  · dsimp only
    rw [Nat.mod_eq_of_lt hov]
    exact ⟨g.totalClusters, by ring⟩
  · dsimp only
    rw [Nat.mod_eq_of_lt (Nat.lt_of_le_of_lt hfree hov)]
    exact ⟨g.freeClusters, by ring⟩

/-- Witness for C7 (amended) at a concrete small volume. -/
theorem tm_getdrivesize_no_overflow_witness :
    ∃ sz, TM_FATFS_GetDriveSize (Except.ok ⟨100, 200, 8, 512⟩) = Except.ok sz ∧
      sz.Free ≤ sz.Total ∧ (8 * 512 : Nat) ∣ sz.Total ∧ (8 * 512 : Nat) ∣ sz.Free :=
  tm_getdrivesize_no_overflow ⟨100, 200, 8, 512⟩ (by norm_num) (by norm_num [UINT32_MOD])

/-- C9: the Total and Free fields of `TM_FATFS_Size_t` are uint32, so
each returned count equals the true byte count reduced modulo 2^32; for
any volume whose true total (or free) byte count is 2^32 or more, the
returned count differs from the true value. -/
theorem tm_getdrivesize_uint32_wraparound (g : DriveGeometry) :
    ∃ sz, TM_FATFS_GetDriveSize (Except.ok g) = Except.ok sz ∧
      sz.Total = g.totalClusters * g.sectorsPerCluster * g.bytesPerSector % 2 ^ 32 ∧
      sz.Free = g.freeClusters * g.sectorsPerCluster * g.bytesPerSector % 2 ^ 32 ∧
      (2 ^ 32 ≤ g.totalClusters * g.sectorsPerCluster * g.bytesPerSector →
        sz.Total ≠ g.totalClusters * g.sectorsPerCluster * g.bytesPerSector) ∧
      (2 ^ 32 ≤ g.freeClusters * g.sectorsPerCluster * g.bytesPerSector →
        sz.Free ≠ g.freeClusters * g.sectorsPerCluster * g.bytesPerSector) := by
  refine ⟨_, rfl, rfl, rfl, ?_, ?_⟩
  · intro h
    dsimp only [UINT32_MOD]
    omega
  · intro h
    dsimp only [UINT32_MOD]
    omega

/-- Witness for C9: a 4 GiB volume's Total wraps and differs from the
true count. -/
theorem tm_getdrivesize_uint32_wraparound_witness :
    ∃ sz, TM_FATFS_GetDriveSize (Except.ok ⟨2 ^ 19, 2 ^ 20, 8, 512⟩) =
        Except.ok sz ∧
      sz.Total ≠ 2 ^ 20 * 8 * 512 := by
  obtain ⟨sz, h1, h2, h3, h4, h5⟩ :=
    tm_getdrivesize_uint32_wraparound ⟨2 ^ 19, 2 ^ 20, 8, 512⟩
  exact ⟨sz, h1, h4 (by norm_num)⟩
